import Mathlib

/-!
Verification of the packaging core of `vsce` (`src/package.ts`).

The development shallowly embeds the ignore-pattern engine
(`collectFiles`), the glob matcher it delegates to (the `minimatch`
dependency, options `dot: true`), and the pipeline stages touched by the
claims: the Markdown stage (base-URL resolution, link and issue
rewriting, image policy), the License, Icon and Localization stages.
Strings are processed on their character lists with executable helpers so
every definition evaluates by kernel reduction.
-/

set_option autoImplicit false
set_option maxRecDepth 8000

/-! ## Generic JavaScript-flavoured string helpers -/

/-- Whitespace recognised by the JavaScript `\s` class and `String.trim`
(restricted to the code points that can actually occur in the inputs the
tool handles). -/
def jsWhitespace (c : Char) : Bool :=
  c == ' ' || c == '\t' || c == '\n' || c == '\r' || c == '\x0b' ||
  c == '\x0c' || c == '\u00A0' || c == '\uFEFF' || c == '\u2028' || c == '\u2029'

/-- Drop leading JavaScript whitespace. -/
def wsDrop (l : List Char) : List Char := l.dropWhile jsWhitespace

/-- Model of the JavaScript `String.prototype.trim`. -/
def jsTrim (s : String) : String :=
  String.mk (((wsDrop s.data).reverse.dropWhile jsWhitespace).reverse)

/-- Split a character list at every separator character (JavaScript
`split(/[c]/)` semantics: each separator produces a boundary, empty
fields are kept). -/
def chSplit (p : Char → Bool) : List Char → List (List Char)
  | [] => [[]]
  | c :: rest =>
    let r := chSplit p rest
    if p c then [] :: r
    else
      match r with
      | [] => [[c]]
      | t :: ts => (c :: t) :: ts

/-- Split at runs of `/` the way Node splits paths and patterns with
`split(/\/+/)`: consecutive slashes produce a single boundary. -/
def splitSlashRuns : List Char → List String
  | [] => [""]
  | '/' :: rest =>
    match rest with
    | '/' :: _ => splitSlashRuns rest
    | _ => "" :: splitSlashRuns rest
  | c :: rest =>
    match splitSlashRuns rest with
    | [] => [String.mk [c]]
    | t :: ts => String.mk (c :: t.data) :: ts

/-- JavaScript truthiness of a nullable string: `null`, `undefined` and
the empty string are falsy. -/
def jsTruthy : Option String → Bool
  | none => false
  | some s => !(s == "")

/-- JavaScript `a || b` on nullable strings. -/
def jsOr (a b : Option String) : Option String :=
  if jsTruthy a then a else b

/-- JavaScript `s.substr(1)`. -/
def jsSubstr1 (s : String) : String := String.mk (s.data.drop 1)

/-- String prefix test on character lists. -/
def startsWithStr (s pre : String) : Bool := pre.data.isPrefixOf s.data

/-- ASCII lower-casing (JavaScript `toLowerCase` on the inputs in
scope), kept on character lists so it evaluates by kernel reduction. -/
def strLower (s : String) : String := String.mk (s.data.map Char.toLower)

/-- ASCII upper-casing (JavaScript `toUpperCase`). -/
def strUpper (s : String) : String := String.mk (s.data.map Char.toUpper)

/-- Decidable equality of `Except` results. -/
instance {e a : Type} [DecidableEq e] [DecidableEq a] : DecidableEq (Except e a) := fun x y =>
  match x, y with
  | Except.ok u, Except.ok v =>
    if h : u = v then isTrue (by rw [h]) else isFalse (by intro hc; cases hc; exact h rfl)
  | Except.error u, Except.error v =>
    if h : u = v then isTrue (by rw [h]) else isFalse (by intro hc; cases hc; exact h rfl)
  | Except.ok _, Except.error _ => isFalse (by intro hc; cases hc)
  | Except.error _, Except.ok _ => isFalse (by intro hc; cases hc)

/-! ## The `minimatch` collaborator

`collectFiles` matches every candidate path against every pattern with
`minimatch(f, pattern, { dot: true })` (minimatch 3.x).  The pattern is
split at slash runs; the path likewise; `**` standing alone in a path
portion is a globstar, any other portion matches with `*` / `?`
wildcards and `\`-escapes; with `dot: true` only the literal portions
`.` and `..` are refused by a globstar.  The matcher below transcribes
`Minimatch.matchOne` (including its behaviour that a trailing `foo/**`
does not match the bare path `foo`, and that a pattern that runs out
against a path with one trailing empty portion matches). -/

/-- One slash-separated portion of a compiled pattern. -/
inductive Seg where
  | globstar : Seg
  | pat : String → Seg
deriving DecidableEq

/-- Wildcard match of one pattern portion against one path portion,
fuelled so that it evaluates by kernel reduction.  `*` matches any run
of characters (never a slash, but portions contain no slash), `?` one
character, `\\c` the literal `c`; every other character matches itself.
The fuel `p.length + cs.length + 1` used by `segPatMatch` is strictly
decreased by every recursive call. -/
def wildMatchF : Nat → List Char → List Char → Bool
  | 0, _, _ => false
  | _ + 1, [], cs => cs.isEmpty
  | n + 1, c :: ps, cs =>
    if c == '*' then
      match cs with
      | [] => wildMatchF n ps []
      | _ :: ds => wildMatchF n ps cs || wildMatchF n ('*' :: ps) ds
    else if c == '?' then
      match cs with
      | [] => false
      | _ :: ds => wildMatchF n ps ds
    else if c == '\\' then
      match ps with
      | [] => cs == ['\\']
      | e :: ps2 =>
        match cs with
        | [] => false
        | d :: ds => e == d && wildMatchF n ps2 ds
    else
      match cs with
      | [] => false
      | d :: ds => c == d && wildMatchF n ps ds

/-- Match one non-globstar pattern portion against one path portion. -/
def segPatMatch (p f : String) : Bool :=
  wildMatchF (p.data.length + f.data.length + 1) p.data f.data

/-- The globstar swallow loop of `Minimatch.matchOne`: try to match the
rest of the pattern at every suffix of the remaining path, refusing to
swallow a literal `.` or `..` portion (`dot: true`). -/
def swallowAux (m : List String → Bool) : List String → Bool
  | [] => false
  | f :: fs => m (f :: fs) || (if f == "." || f == ".." then false else swallowAux m fs)

/-- `Minimatch.matchOne` (options `dot: true`, `partial` false), fuelled
by the pattern length: every recursive call passes a strictly shorter
pattern, so fuel `pattern.length + 1` never runs out. -/
def matchOneF : Nat → List Seg → List String → Bool
  | 0, _, _ => false
  | _ + 1, [], [] => true
  | _ + 1, [], f :: fs => fs.isEmpty && f == ""
  | _ + 1, _ :: _, [] => false
  | n + 1, Seg.globstar :: ps, f :: fs =>
    match ps with
    | [] => (f :: fs).all fun s => !(s == ".") && !(s == "..")
    | _ :: _ => swallowAux (matchOneF n ps) (f :: fs)
  | n + 1, Seg.pat p :: ps, f :: fs => segPatMatch p f && matchOneF n ps fs

/-- Strip the leading `!` negation markers of a minimatch pattern,
returning the parity and the remaining pattern characters. -/
def parseNegateAux : List Char → Bool × List Char
  | '!' :: rest =>
    let r := parseNegateAux rest
    (!r.1, r.2)
  | l => (false, l)

/-- Compile one slash portion: a portion that is exactly `**` is a
globstar. -/
def parseSeg (s : String) : Seg :=
  if s == "**" then Seg.globstar else Seg.pat s

/-- The `minimatch(f, pattern, { dot: true })` call used by
`collectFiles`: comment patterns match nothing, negation markers flip
the result, and the split portions run through `matchOne`. -/
def minimatchJs (f pattern : String) : Bool :=
  if pattern.data.head? == some '#' then false
  else
    let np := parseNegateAux pattern.data
    let segs := (splitSlashRuns np.2).map parseSeg
    let res := matchOneF (segs.length + 1) segs (splitSlashRuns f.data)
    if np.1 then !res else res

/-! ## The ignore engine: `collectFiles` (package.ts lines 737-800) -/

/-- The built-in default exclusion list (`defaultIgnore`). -/
def defaultIgnore : List String :=
  [ ".vscodeignore", "package-lock.json", "yarn.lock", ".editorconfig",
    ".npmrc", ".yarnrc", ".gitattributes", "*.todo", "tslint.yaml",
    ".eslintrc*", ".babelrc*", ".prettierrc", "ISSUE_TEMPLATE.md",
    "CONTRIBUTING.md", "PULL_REQUEST_TEMPLATE.md", "CODE_OF_CONDUCT.md",
    ".github", ".travis.yml", "appveyor.yml", "**/.git/**", "**/*.vsix",
    "**/.DS_Store", "**/*.vsixmanifest", "**/.vscode-test/**" ]

/-- The test `/\r$/m.test(f)` that `collectFiles` applies to every
candidate path before any ignore rule: `$` with the `m` flag matches at
the end of the string and before every JavaScript line terminator. -/
def crTestAux : List Char → Bool
  | [] => false
  | ['\r'] => true
  | '\r' :: c :: rest =>
    (c == '\n' || c == '\r' || c == '\u2028' || c == '\u2029') || crTestAux (c :: rest)
  | _ :: rest => crTestAux rest

/-- Candidate paths matching `/\r$/m` are dropped (package.ts line 779). -/
def crTest (f : String) : Bool := crTestAux f.data

/-- The comment test `/^\s*#/.test(i)` on an ignore line. -/
def hashTest (i : String) : Bool := (wsDrop i.data).head? == some '#'

/-- The negation test `/^\s*!/.test(i)` used to partition rules. -/
def bangTest (i : String) : Bool := (wsDrop i.data).head? == some '!'

/-- The test `/(^|\/)[^/]*\*[^/]*$/.test(i)`: the portion of the pattern
after its last `/` contains a `*`. -/
def lastSegHasStar (i : String) : Bool :=
  (((chSplit (fun c => c == '/') i.data).getLast?).getD []).contains '*'

/-- The trailing-slash test `/\/$/.test(i)`. -/
def endsWithSlash (i : String) : Bool := i.data.getLast? == some '/'

/-- Parse the raw `.vscodeignore` text: split at every newline or
carriage return, trim each line, drop empty lines and `#` comments
(package.ts line 785). -/
def parseRawIgnore (raw : String) : List String :=
  ((((chSplit (fun c => c == '\n' || c == '\r') raw.data).map
      (fun l => jsTrim (String.mk l))).filter
      (fun s => !(s == ""))).filter (fun s => !(hashTest s)))

/-- Expand possible folder names: every project pattern whose last
portion has no `*` additionally contributes `<pattern>/**` (or
`<pattern>**` after a trailing slash) (package.ts line 788). -/
def expandIgnore (ignore : List String) : List String :=
  ignore ++ (ignore.filter fun i => !(lastSegHasStar i)).map
    (fun i => if endsWithSlash i then i ++ "**" else i ++ "/**")

/-- The full rule list: built-in defaults, expanded project rules, and
the unconditional `!package.json` re-include (package.ts line 791). -/
def allPatterns (raw : String) : List String :=
  defaultIgnore ++ expandIgnore (parseRawIgnore raw) ++ ["!package.json"]

/-- Partition into the exclude list and the negate list
(package.ts lines 794-795). -/
def splitIgnoreNegate (l : List String) : List String × List String :=
  l.partition fun i => !(bangTest i)

/-- The exclude rules of a raw project ignore file. -/
def ignoreList (raw : String) : List String := (splitIgnoreNegate (allPatterns raw)).1

/-- The re-include (negate) rules of a raw project ignore file. -/
def negateList (raw : String) : List String := (splitIgnoreNegate (allPatterns raw)).2

/-- The per-file decision of `collectFiles` (package.ts line 798):
keep `f` when no exclude rule matches it or some negate rule (with its
marker stripped by `substr(1)`) matches it.  The matcher is a parameter
so that properties independent of glob semantics hold for any matcher;
`minimatchJs` instantiates it. -/
def ignoreDecision (m : String → String → Bool) (raw : String) (f : String) : Bool :=
  !((ignoreList raw).any fun i => m f i) ||
    ((negateList raw).any fun i => m f (jsSubstr1 i))

/-- The pure core of `collectFiles`: drop carriage-return paths, then
filter by the ignore decision (package.ts lines 777-799).  `files` is
the candidate list produced by the dependency walk, `raw` the text of
the project ignore file (empty when the file is missing). -/
def collectFilesFilter (m : String → String → Bool) (files : List String) (raw : String) :
    List String :=
  (files.filter fun f => !(crTest f)).filter (ignoreDecision m raw)

/-! ## The Markdown stage (package.ts lines 353-510)

`MarkdownProcessor` resolves a content base URL, an images base URL and
a repository URL from the explicit options and the manifest repository
field, then rewrites `[title](link)` constructs and bare issue
references.  `urlReplace` below is the replacement callback of the
markdown path regex with the recursive title rewriting already applied
to its `title` argument; `issueReplace` is the replacement callback of
the issue regex. -/

/-- The manifest `repository` field: a plain string or an object with an
optional `url` property. -/
inductive RepoField where
  | strRepo : String → RepoField
  | objRepo : Option String → RepoField

/-- The three URLs derived by `guessBaseUrls`. -/
structure GuessUrls where
  content : String
  images : String
  repository : String
deriving DecidableEq

/-- Strip a case-insensitive `.git` suffix (`replace(/\.git$/i, "")`). -/
def stripGitSuffix (s : String) : String :=
  if (s.data.reverse.take 4).map Char.toLower == ['t', 'i', 'g', '.'] then
    String.mk (s.data.take (s.data.length - 4))
  else s

/-- Try the regex `github\.com\/([^/]+)\/([^/]+)(\/|$)` at the start of
the character list. -/
def githubAt (l : List Char) : Option (String × String) :=
  if "github.com/".data.isPrefixOf l then
    let rest := l.drop 11
    let seg1 := rest.takeWhile fun c => !(c == '/')
    if seg1.isEmpty then none
    else
      match rest.drop seg1.length with
      | '/' :: rest2 =>
        let seg2 := rest2.takeWhile fun c => !(c == '/')
        if seg2.isEmpty then none else some (String.mk seg1, String.mk seg2)
      | _ => none
  else none

/-- Scan for the first position where the repository regex matches. -/
def githubScan : List Char → Option (String × String)
  | [] => none
  | c :: rest =>
    match githubAt (c :: rest) with
    | some x => some x
    | none => githubScan rest

/-- `MarkdownProcessor.guessBaseUrls` (package.ts lines 468-496): read
the repository reference out of the manifest field, find a
`github.com/owner/repo` segment, and derive the three URLs. -/
def guessBaseUrls (repo : Option RepoField) : Option GuessUrls :=
  let repository : Option String :=
    match repo with
    | some (RepoField.strRepo s) => some s
    | some (RepoField.objRepo (some u)) => some u
    | _ => none
  match repository with
  | none => none
  | some r =>
    if r == "" then none
    else
      match githubScan r.data with
      | none => none
      | some (account, name) =>
        let repositoryName := stripGitSuffix name
        some
          { content := "https://github.com/" ++ account ++ "/" ++ repositoryName ++ "/blob/master"
            images := "https://github.com/" ++ account ++ "/" ++ repositoryName ++ "/raw/master"
            repository := "https://github.com/" ++ account ++ "/" ++ repositoryName }

/-- `isGitHubRepository` (package.ts lines 182-184), applied to
`repository || ""`. -/
def isGitHubRepository (o : Option String) : Bool :=
  let s := match o with | some s => s | none => ""
  startsWithStr s "https://github.com/" || startsWithStr s "git@github.com:"

/-- The URL state a `MarkdownProcessor` carries. -/
structure MdUrls where
  baseContentUrl : Option String
  baseImagesUrl : Option String
  repositoryUrl : Option String
  isGitHub : Bool

/-- The `MarkdownProcessor` constructor (package.ts lines 360-369):
explicit options win, the images base additionally falls back to the
explicit content base, and the repository URL is always the guessed
one. -/
def mkMarkdownUrls (optContent optImages : Option String) (repo : Option RepoField) : MdUrls :=
  let guess := guessBaseUrls repo
  let gContent := guess.map GuessUrls.content
  let gImages := guess.map GuessUrls.images
  let gRepo := guess.map GuessUrls.repository
  { baseContentUrl := jsOr optContent gContent
    baseImagesUrl := jsOr optImages (jsOr optContent gImages)
    repositoryUrl := gRepo
    isGitHub := isGitHubRepository gRepo }

/-- The word-character class `\w` of JavaScript regexes. -/
def isWordChar (c : Char) : Bool :=
  ('a' ≤ c && c ≤ 'z') || ('A' ≤ c && c ≤ 'Z') || ('0' ≤ c && c ≤ '9') || c == '_'

/-- Helper for `/^\w+:\/\//`: after at least one word character the next
three characters are `://`. -/
def schemeAux : List Char → Bool
  | [] => false
  | c :: rest =>
    if isWordChar c then schemeAux rest
    else c == ':' && rest.take 2 == ['/', '/']

/-- The scheme test `/^\w+:\/\//.test(link)`. -/
def schemeTest (link : String) : Bool :=
  match link.data with
  | [] => false
  | c :: rest => isWordChar c && schemeAux rest

/-- A markdown target is relative when it has no scheme and does not
start with `#` (package.ts line 388). -/
def isLinkRelative (link : String) : Bool :=
  !(schemeTest link) && !(link.data.head? == some '#')

/-- Collapse duplicated slashes that do not follow a colon, as the
`url-join` collaborator does on already-clean segments. -/
def collapseSlashes : Char → Char → List Char → List Char
  | _, _, [] => []
  | p2, p1, c :: rest =>
    if c == '/' && p1 == '/' && !(p2 == ':') then collapseSlashes p1 c rest
    else c :: collapseSlashes p1 c rest

/-- Model of the `url-join` collaborator on scheme-prefixed clean
segments: join with `/` and collapse duplicate slashes outside the
scheme separator. -/
def urljoinList (parts : List String) : String :=
  String.mk (collapseSlashes '\x00' '\x00' (String.intercalate "/" parts).data)

/-- The link-rewriting callback (package.ts lines 387-406) with the
title already recursively rewritten: for a relative link with neither
base URL available the stage throws; otherwise a missing relevant base
or an absolute link leaves the construct unchanged, and a relative link
is joined onto the relevant base (the images base for an image, the
content base for a link). -/
def urlReplace (st : MdUrls) (isImage : Bool) (title link : String) : Except String String :=
  let isRel := isLinkRelative link
  if !(jsTruthy st.baseContentUrl) && !(jsTruthy st.baseImagesUrl) && isRel then
    Except.error ("Could not detect the repository where this extension is published: " ++ link)
  else
    let pfx := if isImage then st.baseImagesUrl else st.baseContentUrl
    let bang := if isImage then "!" else ""
    if !(jsTruthy pfx) || !isRel then
      Except.ok (bang ++ "[" ++ title ++ "](" ++ link ++ ")")
    else
      Except.ok (bang ++ "[" ++ title ++ "](" ++
        urljoinList [(match pfx with | some s => s | none => ""), link] ++ ")")

/-- JavaScript `s.split("/", 2)` destructured into two components, the
second empty when absent (matching its falsiness). -/
def jsSplitSlash2 (s : String) : String × String :=
  let pre := s.data.takeWhile fun c => !(c == '/')
  match s.data.drop pre.length with
  | [] => (String.mk pre, "")
  | _ :: r2 => (String.mk pre, String.mk (r2.takeWhile fun c => !(c == '/')))

/-- The issue-reference replacement callback (package.ts lines 411-433).
`whole` is the full match, `pre` the captured leading whitespace,
`oarn` the optional `owner/repo` capture and `issueNumber` the digits
capture. -/
def issueReplace (st : MdUrls) (whole pre : String) (oarn : Option String)
    (issueNumber : String) : String :=
  let ow :=
    match oarn with
    | some s => jsSplitSlash2 s
    | none => ("", "")
  if st.isGitHub then
    if !(ow.1 == "") && !(ow.2 == "") && !(issueNumber == "") then
      pre ++ "[" ++ ow.1 ++ "/" ++ ow.2 ++ "#" ++ issueNumber ++ "](" ++
        urljoinList ["https://github.com", ow.1, ow.2, "issues", issueNumber] ++ ")"
    else if ow.1 == "" && ow.2 == "" && !(issueNumber == "") then
      pre ++ "[#" ++ issueNumber ++ "](" ++
        urljoinList [(match st.repositoryUrl with | some s => s | none => ""),
          "issues", issueNumber] ++ ")"
    else whole
  else whole

/-! ## The image policy checks (package.ts lines 440-455)

After rewriting, the stage renders the markdown and inspects every
`img` element.  The Node `url.parse` collaborator supplies the
`protocol`, `host`, `path` and `pathname` components (each `null` when
absent); a regex test against a `null` component tests the string
`"null"` by JavaScript coercion. -/

/-- The components of a parsed image source URL. -/
structure ParsedUrl where
  protocol : Option String
  host : Option String
  path : Option String
  pathname : Option String

/-- JavaScript string coercion of a nullable component. -/
def optStr : Option String → String
  | none => "null"
  | some s => s

/-- Case-insensitive substring test used for `/\/svg/i`. -/
def containsSub (s sub : List Char) : Bool :=
  match s with
  | [] => sub.isEmpty
  | _ :: rest => sub.isPrefixOf s || containsSub rest sub

/-- The trusted SVG badge hosts (`TrustedSVGSources`). -/
def TrustedSVGSources : List String :=
  [ "api.bintray.com", "api.travis-ci.com", "api.travis-ci.org", "app.fossa.io",
    "badge.buildkite.com", "badge.fury.io", "badge.waffle.io", "badgen.net",
    "badges.frapsoft.com", "badges.gitter.im", "badges.greenkeeper.io",
    "cdn.travis-ci.com", "cdn.travis-ci.org", "ci.appveyor.com", "circleci.com",
    "cla.opensource.microsoft.com", "codacy.com", "codeclimate.com", "codecov.io",
    "coveralls.io", "david-dm.org", "deepscan.io", "dev.azure.com", "docs.rs",
    "flat.badgen.net", "gemnasium.com", "githost.io", "gitlab.com", "godoc.org",
    "goreportcard.com", "img.shields.io", "isitmaintained.com",
    "marketplace.visualstudio.com", "nodesecurity.io", "opencollective.com",
    "snyk.io", "travis-ci.com", "travis-ci.org", "visualstudio.com",
    "vsmarketplacebadge.apphb.com", "www.bithound.io", "www.versioneye.com" ]

/-- `isHostTrusted` against a given allow-list. -/
def isHostTrustedIn (sources : List String) (host : String) : Bool :=
  sources.contains (strLower host)

/-- The three image checks of `MarkdownProcessor.onFile`
(package.ts lines 440-455), parametrised by the trusted-host list:
an SVG data URL is refused, a non-HTTPS source is refused, and an
`.svg` path on an untrusted host is refused. -/
def checkImageSrc (sources : List String) (u : ParsedUrl) : Except String Unit :=
  if strLower (optStr u.protocol) == "data:" && strLower (optStr u.host) == "image" &&
      containsSub (strLower (optStr u.path)).data "/svg".data then
    Except.error "SVG data URLs are not allowed"
  else if !(strLower (optStr u.protocol) == "https:") then
    Except.error "Images must come from an HTTPS source"
  else if (strLower (optStr u.pathname)).data.reverse.take 4 == ".svg".data.reverse &&
      !(isHostTrustedIn sources (optStr u.host)) then
    Except.error "SVGs are restricted; please use other file image formats"
  else Except.ok ()

/-- The image checks with the repository allow-list. -/
def checkImage (u : ParsedUrl) : Except String Unit :=
  checkImageSrc TrustedSVGSources u

/-! ## The License stage (package.ts lines 512-550)

When the manifest license field has the form `SEE LICENSE IN X`, the
filter is `new RegExp("^extension/" + X + "$").test`: `X` is spliced in
unescaped, so its regex metacharacters keep their meaning.  The regex
fragment is modelled for patterns made of literal characters, `.` and
`\`-escapes, which covers the anchored concatenation the stage builds. -/

/-- One atom of the compiled license regex. -/
inductive RAtom where
  | dot : RAtom
  | lit : Char → RAtom
deriving DecidableEq

/-- Compile a pattern fragment: `.` matches any non-terminator
character, `\c` and every other character match literally. -/
def parseRAtoms : List Char → List RAtom
  | [] => []
  | '\\' :: c :: rest => RAtom.lit c :: parseRAtoms rest
  | '.' :: rest => RAtom.dot :: parseRAtoms rest
  | c :: rest => RAtom.lit c :: parseRAtoms rest

/-- A JavaScript line terminator (excluded by `.`). -/
def isLineTerm (c : Char) : Bool :=
  c == '\n' || c == '\r' || c == '\u2028' || c == '\u2029'

/-- Anchored match of the compiled atoms against a whole string
(`^...$`). -/
def ratomsMatch : List RAtom → List Char → Bool
  | [], [] => true
  | [], _ :: _ => false
  | RAtom.dot :: ps, c :: cs => !(isLineTerm c) && ratomsMatch ps cs
  | RAtom.dot :: _, [] => false
  | RAtom.lit a :: ps, c :: cs => a == c && ratomsMatch ps cs
  | RAtom.lit _ :: _, [] => false

/-- `/^SEE LICENSE IN (.*)$/.exec(license)` (package.ts line 520):
the capture is everything after the fixed prefix provided the remainder
contains no line terminator. -/
def seeLicenseExec (license : String) : Option String :=
  if startsWithStr license "SEE LICENSE IN " &&
      !((license.data.drop 15).any isLineTerm) then
    some (String.mk (license.data.drop 15))
  else none

/-- The default filter `/^extension\/license(\.(md|txt))?$/i`. -/
def defaultLicenseTest (name : String) : Bool :=
  strLower name == "extension/license" || strLower name == "extension/license.md" ||
    strLower name == "extension/license.txt"

/-- The license filename filter chosen by the `LicenseProcessor`
constructor (package.ts lines 517-527): with a `SEE LICENSE IN X`
manifest field the filter is the unescaped regex `^extension/X$`,
otherwise the fixed case-insensitive default. -/
def licenseFilter (license : Option String) (name : String) : Bool :=
  match seeLicenseExec (match license with | some s => s | none => "") with
  | none => defaultLicenseTest name
  | some x =>
    if x == "" then defaultLicenseTest name
    else ratomsMatch (parseRAtoms ("extension/" ++ x).data) name.data

/-! ## The Icon stage (package.ts lines 552-581)

`util.normalize` (a collaborator outside this file) canonicalises a
path; the stage is parametric in it.  The processor records an icon
asset for every included file whose normalised path equals
`extension/<manifest.icon>` and rejects at finalize when an icon was
declared but never found. -/

/-- The icon asset type identifier. -/
def iconAssetType : String := "Microsoft.VisualStudio.Services.Icons.Default"

/-- The state an `IconProcessor` carries. -/
structure IconState where
  didFindIcon : Bool
  assets : List (String × String)
  vsixIcon : Option String
deriving DecidableEq

/-- The `IconProcessor` constructor (package.ts line 560): a truthy
manifest icon is prefixed with `extension/`. -/
def iconInit (manifestIcon : Option String) : Option String :=
  match manifestIcon with
  | some i => if i == "" then none else some ("extension/" ++ i)
  | none => none

/-- `IconProcessor.onFile` (package.ts lines 564-572). -/
def iconOnFile (normalize : String → String) (icon : Option String)
    (st : IconState) (filePath : String) : IconState :=
  let normalizedPath := normalize filePath
  if icon == some normalizedPath then
    { didFindIcon := true
      assets := st.assets ++ [(iconAssetType, normalizedPath)]
      vsixIcon := icon }
  else st

/-- Run the icon stage over the included files. -/
def iconRun (normalize : String → String) (manifestIcon : Option String)
    (files : List String) : IconState :=
  files.foldl (iconOnFile normalize (iconInit manifestIcon))
    { didFindIcon := false, assets := [], vsixIcon := none }

/-- `IconProcessor.onEnd` (package.ts lines 574-580). -/
def iconOnEnd (icon : Option String) (st : IconState) : Except String Unit :=
  match icon with
  | some i =>
    if !st.didFindIcon then
      Except.error ("The specified icon " ++ i ++ " was not found in the extension")
    else Except.ok ()
  | none => Except.ok ()

/-! ## The Localization stage (package.ts lines 583-623)

The constructor walks the manifest localization contributions and
builds a JavaScript object from upper-cased language id to normalised
translation path — later writes to the same key overwrite earlier ones
in place — then inverts it into a path-to-language object.  `onFile`
registers a translation asset for every included file whose normalised
path is a key of the inverted object. -/

/-- One translation declaration of a localization contribution. -/
structure Translation where
  id : String
  path : String
deriving DecidableEq

/-- One manifest localization contribution. -/
structure NlsLocalization where
  languageId : String
  translations : List Translation
deriving DecidableEq

/-- JavaScript object write: an existing key keeps its position and
gets the new value, a new key is appended. -/
def objSet (m : List (String × String)) (k v : String) : List (String × String) :=
  if m.any fun p => p.1 == k then
    m.map fun p => if p.1 == k then (k, v) else p
  else m ++ [(k, v)]

/-- JavaScript object read. -/
def objGet (m : List (String × String)) (k : String) : Option String :=
  (m.find? fun p => p.1 == k).map Prod.snd

/-- `replace(/^\.[\/\\]/, "")`: strip one leading `./` or `.\`. -/
def stripDotSlash (p : String) : String :=
  match p.data with
  | '.' :: '/' :: rest => String.mk rest
  | '.' :: '\\' :: rest => String.mk rest
  | _ => p

/-- The normalised `extension/` path a translation declaration maps
to. -/
def nlsPathOf (normalize : String → String) (tr : Translation) : String :=
  "extension/" ++ normalize (stripDotSlash tr.path)

/-- The language-to-path object built by the `NLSProcessor` constructor
(package.ts lines 596-605): later declarations for the same language
overwrite earlier ones. -/
def buildLangToPath (normalize : String → String) (locs : List NlsLocalization) :
    List (String × String) :=
  locs.foldl
    (fun m loc =>
      loc.translations.foldl
        (fun m2 tr =>
          if tr.id == "vscode" && !(tr.path == "") then
            objSet m2 (strUpper loc.languageId) (nlsPathOf normalize tr)
          else m2)
        m)
    []

/-- The inverted path-to-language object (package.ts lines 607-610). -/
def buildPathToLang (m : List (String × String)) : List (String × String) :=
  m.foldl (fun inv kv => objSet inv kv.2 kv.1) []

/-- The translation asset type for a language. -/
def nlsAssetType (language : String) : String :=
  "Microsoft.VisualStudio.Code.Translation." ++ language

/-- `NLSProcessor.onFile` (package.ts lines 613-622), accumulating the
assets list. -/
def nlsOnFile (normalize : String → String) (inv : List (String × String))
    (assets : List (String × String)) (filePath : String) : List (String × String) :=
  let normalizedPath := normalize filePath
  match objGet inv normalizedPath with
  | some language =>
    if !(language == "") then assets ++ [(nlsAssetType language, normalizedPath)]
    else assets
  | none => assets

/-- Run the localization stage over the included files. -/
def nlsRun (normalize : String → String) (locs : List NlsLocalization)
    (files : List String) : List (String × String) :=
  files.foldl (nlsOnFile normalize (buildPathToLang (buildLangToPath normalize locs))) []

/-- All paths declared for language `L` (upper-cased id), in manifest
order, processed exactly as the constructor processes them.  The last
element is the path the constructor keeps for `L`. -/
def declaredTranslationPaths (normalize : String → String) (locs : List NlsLocalization)
    (lang : String) : List String :=
  (((locs.flatMap fun loc =>
      (loc.translations.filter fun tr => tr.id == "vscode" && !(tr.path == "")).map
        fun tr => (strUpper loc.languageId, nlsPathOf normalize tr)).filter
    fun e => e.1 == lang).map Prod.snd)

/-- A carriage return immediately followed by a newline somewhere in the
character list (the situation named by the claim about dropped
carriage-return paths). -/
def crlfAux : List Char → Bool
  | '\r' :: '\n' :: _ => true
  | _ :: rest => crlfAux rest
  | [] => false

/-- The flattened `(language, path)` declaration sequence the
`NLSProcessor` constructor walks, in manifest order. -/
def nlsEntries (normalize : String → String) (locs : List NlsLocalization) :
    List (String × String) :=
  locs.flatMap fun loc =>
    (loc.translations.filter fun tr => tr.id == "vscode" && !(tr.path == "")).map
      fun tr => (strUpper loc.languageId, nlsPathOf normalize tr)

/-! # Helper lemmas -/

theorem mem_collectFilesFilter {m : String → String → Bool} {files : List String}
    {raw : String} {f : String} :
    f ∈ collectFilesFilter m files raw ↔
      f ∈ files ∧ crTest f = false ∧ ignoreDecision m raw f = true := by
  simp only [collectFilesFilter, List.mem_filter, Bool.not_eq_true']
  tauto

theorem crTest_of_endsCR : ∀ l : List Char, l.getLast? = some '\r' → crTestAux l = true := by
  intro l
  induction l with
  | nil => intro h; simp at h
  | cons c rest ih =>
    intro h
    match rest, h with
    | [], h =>
      simp at h
      subst h
      rfl
    | d :: rest2, h =>
      rw [List.getLast?_cons_cons] at h
      have hr := ih h
      by_cases hc : c = '\r'
      · subst hc; simp [crTestAux, hr]
      · simp [crTestAux, hc, hr]

theorem crTest_of_crlf : ∀ l : List Char, crlfAux l = true → crTestAux l = true := by
  intro l
  induction l with
  | nil => intro h; simp [crlfAux] at h
  | cons c rest ih =>
    intro h
    match rest, h with
    | [], h =>
      by_cases hc : c = '\r' <;> simp [crlfAux, hc] at h
    | d :: rest2, h =>
      by_cases hc : c = '\r'
      · subst hc
        by_cases hd : d = '\n'
        · subst hd; rfl
        · have : crlfAux (d :: rest2) = true := by
            simpa [crlfAux, hd] using h
          simp [crTestAux, ih this]
      · have : crlfAux (d :: rest2) = true := by
          simpa [crlfAux, hc] using h
        simp [crTestAux, hc, ih this]

/-! # C1 -/

/-- C10: every candidate path that ends with a carriage return, or
contains one immediately before a newline, is dropped by `collectFiles`
before any ignore rule applies, for every matcher, candidate list and
rule set. -/
theorem cr_files_never_included (m : String → String → Bool) (files : List String)
    (raw : String) (f : String)
    (h : f.data.getLast? = some '\r' ∨ crlfAux f.data = true) :
    f ∉ collectFilesFilter m files raw := by
  intro hmem
  rw [mem_collectFilesFilter] at hmem
  have htrue : crTest f = true := by
    rcases h with h | h
    · exact crTest_of_endsCR _ h
    · exact crTest_of_crlf _ h
  rw [hmem.2.1] at htrue
  exact Bool.false_ne_true htrue

/-- Witness for C10 at a concrete carriage-return path. -/
theorem cr_files_never_included_witness :
    "x\r" ∉ collectFilesFilter minimatchJs ["x\r"] "" :=
  cr_files_never_included minimatchJs ["x\r"] "" "x\r" (by decide)

/-- C1 (amended): once the carriage-return prefilter is taken into
account, the included set of `collectFiles` is exactly
`(F - matches(exclude)) ∪ (matches(reinclude) ∩ matches(exclude))`:
a carriage-return-free candidate is included iff no exclude rule
matches it, or some re-include rule matches it while an exclude rule
does. -/
theorem collectFiles_decision_iff (m : String → String → Bool) (files : List String)
    (raw : String) (f : String) (hcr : crTest f = false) :
    f ∈ collectFilesFilter m files raw ↔
      ((f ∈ files ∧ ¬ ((ignoreList raw).any fun i => m f i) = true) ∨
       (f ∈ files ∧ ((negateList raw).any fun i => m f (jsSubstr1 i)) = true ∧
         ((ignoreList raw).any fun i => m f i) = true)) := by
  rw [mem_collectFilesFilter]
  simp only [hcr, ignoreDecision, Bool.or_eq_true, Bool.not_eq_true']
  constructor
  · rintro ⟨hf, -, hd | hd⟩
    · exact Or.inl ⟨hf, by simp [hd]⟩
    · by_cases hex : ((ignoreList raw).any fun i => m f i) = true
      · exact Or.inr ⟨hf, hd, hex⟩
      · exact Or.inl ⟨hf, hex⟩
  · rintro (⟨hf, hd⟩ | ⟨hf, hneg, -⟩)
    · exact ⟨hf, trivial, Or.inl (by simpa using hd)⟩
    · exact ⟨hf, trivial, Or.inr hneg⟩

/-- Counterexample to C1 as stated: the candidate `"a\r"` satisfies the
claimed decision rule (no exclude rule matches it), yet `collectFiles`
does not include it, because the carriage-return prefilter drops it
before the rules run. -/
theorem collectFiles_cr_file_breaks_decision :
    ignoreDecision minimatchJs "" "a\r" = true ∧ "a\r" ∈ ["a\r"] ∧
      "a\r" ∉ collectFilesFilter minimatchJs ["a\r"] "" := by decide

/-- Witness for the amended C1 at a concrete input. -/
theorem collectFiles_decision_iff_witness :
    crTest "src/a.ts" = false ∧
      ("src/a.ts" ∈ collectFilesFilter minimatchJs ["src/a.ts"] "" ↔
        (("src/a.ts" ∈ ["src/a.ts"] ∧
            ¬ ((ignoreList "").any fun i => minimatchJs "src/a.ts" i) = true) ∨
         ("src/a.ts" ∈ ["src/a.ts"] ∧
            ((negateList "").any fun i => minimatchJs "src/a.ts" (jsSubstr1 i)) = true ∧
            ((ignoreList "").any fun i => minimatchJs "src/a.ts" i) = true))) :=
  ⟨by decide, collectFiles_decision_iff minimatchJs ["src/a.ts"] "" "src/a.ts" (by decide)⟩

/-- C4: a candidate list containing the manifest descriptor
`package.json` always yields it in the included set, whatever the
project rule set: the unconditional `!package.json` re-include rule
fires for every raw ignore file. -/
theorem manifest_always_included (files : List String) (raw : String)
    (h : "package.json" ∈ files) :
    "package.json" ∈ collectFilesFilter minimatchJs files raw := by
  rw [mem_collectFilesFilter]
  refine ⟨h, by decide, ?_⟩
  have hmem : "!package.json" ∈ negateList raw := by
    unfold negateList splitIgnoreNegate
    rw [List.partition_eq_filter_filter]
    apply List.mem_filter.mpr
    refine ⟨?_, by decide⟩
    unfold allPatterns
    simp [List.mem_append]
  have hneg : ((negateList raw).any fun i => minimatchJs "package.json" (jsSubstr1 i)) = true :=
    List.any_eq_true.mpr ⟨"!package.json", hmem, by decide⟩
  simp [ignoreDecision, hneg]

/-- Witness for C4 at a concrete candidate list and rule set. -/
theorem manifest_always_included_witness :
    "package.json" ∈ collectFilesFilter minimatchJs ["package.json", "a.txt"] "**" :=
  manifest_always_included ["package.json", "a.txt"] "**" (by decide)

/-! # Lemmas about matching the bare pattern `foo` (for C3) -/

theorem wildMatchF_foo : ∀ (n : Nat) (cs : List Char),
    wildMatchF n ['f', 'o', 'o'] cs = true → cs = ['f', 'o', 'o'] := by
  intro n cs h
  rcases n with _ | n
  · exact absurd h (by simp [wildMatchF])
  rcases cs with _ | ⟨d, ds⟩
  · exact absurd h (by simp [wildMatchF])
  have h1 : (('f' == d) && wildMatchF n ['o', 'o'] ds) = true := h
  rw [Bool.and_eq_true] at h1
  obtain ⟨hd, h2⟩ := h1
  have hd2 : d = 'f' := (beq_iff_eq.mp hd).symm
  rcases n with _ | n
  · exact absurd h2 (by simp [wildMatchF])
  rcases ds with _ | ⟨e, es⟩
  · exact absurd h2 (by simp [wildMatchF])
  have h3 : (('o' == e) && wildMatchF n ['o'] es) = true := h2
  rw [Bool.and_eq_true] at h3
  obtain ⟨he, h4⟩ := h3
  have he2 : e = 'o' := (beq_iff_eq.mp he).symm
  rcases n with _ | n
  · exact absurd h4 (by simp [wildMatchF])
  rcases es with _ | ⟨g, gs⟩
  · exact absurd h4 (by simp [wildMatchF])
  have h5 : (('o' == g) && wildMatchF n [] gs) = true := h4
  rw [Bool.and_eq_true] at h5
  obtain ⟨hg, h6⟩ := h5
  have hg2 : g = 'o' := (beq_iff_eq.mp hg).symm
  rcases n with _ | n
  · exact absurd h6 (by simp [wildMatchF])
  have h7 : gs.isEmpty = true := h6
  have hgs : gs = [] := by simpa using h7
  simp [hd2, he2, hg2, hgs]

theorem segPatMatch_foo (x : String) (h : segPatMatch "foo" x = true) : x = "foo" := by
  have hdata : x.data = ['f', 'o', 'o'] := wildMatchF_foo _ _ h
  cases x
  simp only [String.data] at hdata
  rw [hdata]

theorem splitSlashRuns_ne_nil : ∀ l : List Char, splitSlashRuns l ≠ [] := by
  intro l
  induction l with
  | nil => simp [splitSlashRuns]
  | cons c rest ih =>
    by_cases hc : c = '/'
    · subst hc
      rcases rest with _ | ⟨d, r2⟩
      · simp [splitSlashRuns]
      · by_cases hd : d = '/'
        · subst hd
          simpa [splitSlashRuns] using ih
        · simp [splitSlashRuns, hd]
    · rcases hsp : splitSlashRuns rest with _ | ⟨t, ts⟩
      · exact absurd hsp ih
      · simp [splitSlashRuns, hc, hsp]

theorem splitSlashRuns_no_slash : ∀ l : List Char, (∀ c ∈ l, c ≠ '/') →
    splitSlashRuns l = [String.mk l] := by
  intro l
  induction l with
  | nil => intro _; rfl
  | cons c rest ih =>
    intro hn
    have hc : c ≠ '/' := hn c (List.mem_cons_self c rest)
    have hr : splitSlashRuns rest = [String.mk rest] :=
      ih fun d hd => hn d (List.mem_cons_of_mem c hd)
    simp [splitSlashRuns, hc, hr]

theorem splitSlashRuns_len2 : ∀ l : List Char, '/' ∈ l →
    2 ≤ (splitSlashRuns l).length := by
  intro l
  induction l with
  | nil => intro h; simp at h
  | cons c rest ih =>
    intro hmem
    by_cases hc : c = '/'
    · subst hc
      rcases rest with _ | ⟨d, r2⟩
      · simp [splitSlashRuns]
      · by_cases hd : d = '/'
        · subst hd
          have : '/' ∈ '/' :: r2 := List.mem_cons_self _ _
          simpa [splitSlashRuns] using ih this
        · rcases hsp : splitSlashRuns (d :: r2) with _ | ⟨t, ts⟩
          · exact absurd hsp (splitSlashRuns_ne_nil _)
          · simp [splitSlashRuns, hd, hsp]
    · have hrest : '/' ∈ rest := by
        rcases List.mem_cons.mp hmem with h | h
        · exact absurd h.symm hc
        · exact h
      have h2 := ih hrest
      rcases hsp : splitSlashRuns rest with _ | ⟨t, ts⟩
      · exact absurd hsp (splitSlashRuns_ne_nil rest)
      · rw [hsp] at h2
        simp [splitSlashRuns, hc, hsp]
        simpa using h2

theorem splitSlashRuns_singleton (l : List Char) (x : String)
    (h : splitSlashRuns l = [x]) : l = x.data := by
  by_cases hs : '/' ∈ l
  · have := splitSlashRuns_len2 l hs
    rw [h] at this
    simp at this
  · have hn : ∀ c ∈ l, c ≠ '/' := fun c hc he => hs (he ▸ hc)
    rw [splitSlashRuns_no_slash l hn] at h
    have : String.mk l = x := by simpa using h
    rw [← this]

theorem matchOneF_pat_foo : ∀ (n : Nat) (L : List String),
    matchOneF n [Seg.pat "foo"] L = true → L = ["foo"] ∨ L = ["foo", ""] := by
  intro n L h
  rcases n with _ | n
  · exact absurd h (by simp [matchOneF])
  rcases L with _ | ⟨x, xs⟩
  · exact absurd h (by simp [matchOneF])
  rcases xs with _ | ⟨y, ys⟩
  · have h1 : (segPatMatch "foo" x && matchOneF n [] []) = true := h
    rw [Bool.and_eq_true] at h1
    left
    rw [segPatMatch_foo x h1.1]
  · have h1 : (segPatMatch "foo" x && matchOneF n [] (y :: ys)) = true := h
    rw [Bool.and_eq_true] at h1
    have hx : x = "foo" := segPatMatch_foo x h1.1
    have h2 := h1.2
    rcases n with _ | n
    · exact absurd h2 (by simp [matchOneF])
    have h3 : (ys.isEmpty && (y == "")) = true := h2
    rw [Bool.and_eq_true] at h3
    have hys : ys = [] := by simpa using h3.1
    have hy : y = "" := by simpa using h3.2
    right
    rw [hx, hy, hys]

theorem minimatch_bare_foo (f : String) (h : minimatchJs f "foo" = true) :
    f = "foo" ∨ minimatchJs f "foo/**" = true := by
  have h0 : matchOneF 2 [Seg.pat "foo"] (splitSlashRuns f.data) = true := h
  rcases matchOneF_pat_foo 2 _ h0 with hL | hL
  · left
    have hdata := splitSlashRuns_singleton f.data "foo" hL
    cases f
    simp only [String.data] at hdata
    rw [hdata]
  · right
    have h1 : minimatchJs f "foo/**" =
        matchOneF 3 [Seg.pat "foo", Seg.globstar] (splitSlashRuns f.data) := rfl
    rw [h1, hL]
    decide

theorem ignoreDecision_foo_eq (f : String) (hfoo : ¬ f = "foo") :
    ignoreDecision minimatchJs "foo" f = ignoreDecision minimatchJs "foo/**" f := by
  unfold ignoreDecision
  rw [show ignoreList "foo" = defaultIgnore ++ ["foo", "foo/**"] from by decide,
    show negateList "foo" = ["!package.json"] from by decide,
    show ignoreList "foo/**" = defaultIgnore ++ ["foo/**"] from by decide,
    show negateList "foo/**" = ["!package.json"] from by decide]
  simp only [List.any_append, List.any_cons, List.any_nil]
  cases hb1 : minimatchJs f "foo"
  · simp
  · have hb2 : minimatchJs f "foo/**" = true :=
      (minimatch_bare_foo f hb1).resolve_left hfoo
    rw [hb2]
    simp

/-- C3 (amended): a project ignore file holding the single bare pattern
`foo` excludes exactly the files the single pattern `foo/**` excludes,
plus the file whose path is exactly `foo` — a carriage-return-free
candidate is included under `foo` iff it is included under `foo/**` and
is not itself the path `foo`. -/
theorem bare_folder_pattern_vs_globstar (files : List String) (f : String)
    (hcr : crTest f = false) :
    f ∈ collectFilesFilter minimatchJs files "foo" ↔
      (f ∈ collectFilesFilter minimatchJs files "foo/**" ∧ ¬ f = "foo") := by
  rw [mem_collectFilesFilter, mem_collectFilesFilter]
  by_cases hfoo : f = "foo"
  · subst hfoo
    have hdec : ignoreDecision minimatchJs "foo" "foo" = false := by decide
    simp [hdec]
  · rw [ignoreDecision_foo_eq f hfoo]
    simp [hfoo]

/-- Counterexample to C3 as stated: on the candidate list `["foo"]`
(a file literally named `foo`), the bare pattern `foo` excludes the
file while the pattern `foo/**` does not — minimatch does not match the
bare path `foo` against `foo/**`. -/
theorem bare_folder_pattern_excludes_foo_itself :
    collectFilesFilter minimatchJs ["foo"] "foo" = [] ∧
      collectFilesFilter minimatchJs ["foo"] "foo/**" = ["foo"] := by decide

/-- Witness for the amended C3 at a concrete input. -/
theorem bare_folder_pattern_vs_globstar_witness :
    crTest "foo/bar.txt" = false ∧
      ("foo/bar.txt" ∈ collectFilesFilter minimatchJs ["foo/bar.txt"] "foo" ↔
        ("foo/bar.txt" ∈ collectFilesFilter minimatchJs ["foo/bar.txt"] "foo/**" ∧
          ¬ "foo/bar.txt" = "foo")) :=
  ⟨by decide, bare_folder_pattern_vs_globstar ["foo/bar.txt"] "foo/bar.txt" (by decide)⟩

/-- C2 (amended): the Markdown stage is fatal on a relative target
exactly when both the content base URL and the images base URL
(explicit or inferred) are absent; when only the base relevant to the
construct's category is absent but the other one exists, the relative
target is passed through unrewritten without an error. -/
theorem markdown_relative_error_iff (st : MdUrls) (isImage : Bool) (title link : String) :
    ((∃ e, urlReplace st isImage title link = Except.error e) ↔
      (isLinkRelative link = true ∧ jsTruthy st.baseContentUrl = false ∧
        jsTruthy st.baseImagesUrl = false))
    ∧ (isLinkRelative link = true →
        jsTruthy (if isImage then st.baseImagesUrl else st.baseContentUrl) = false →
        jsTruthy (if isImage then st.baseContentUrl else st.baseImagesUrl) = true →
        urlReplace st isImage title link =
          Except.ok ((if isImage then "!" else "") ++ "[" ++ title ++ "](" ++ link ++ ")")) := by
  cases hr : isLinkRelative link <;> cases hc : jsTruthy st.baseContentUrl <;>
    cases hi : jsTruthy st.baseImagesUrl <;> cases isImage <;>
      simp [urlReplace, hr, hc, hi]

/-- Counterexample to C2 as stated: with an explicit images base URL but
no content base URL and no repository to infer one from, a relative
plain link is passed through unrewritten and no error is raised,
although the claim requires any relative target to be fatal whenever
the relevant (content) base is absent. -/
theorem markdown_relative_silently_kept :
    jsTruthy (mkMarkdownUrls none (some "https://images.example.com") none).baseContentUrl
        = false ∧
      isLinkRelative "doc/page.md" = true ∧
      urlReplace (mkMarkdownUrls none (some "https://images.example.com") none) false "a"
          "doc/page.md" = Except.ok "[a](doc/page.md)" := by decide

/-- Witness for the amended C2 at a concrete constructor state. -/
theorem markdown_relative_error_iff_witness :
    urlReplace (mkMarkdownUrls none (some "https://img.example.org") none) false "t"
        "img/x.png" =
      Except.ok ((if false then "!" else "") ++ "[" ++ "t" ++ "](" ++ "img/x.png" ++ ")") :=
  (markdown_relative_error_iff (mkMarkdownUrls none (some "https://img.example.org") none)
    false "t" "img/x.png").2 (by decide) (by decide) (by decide)

/-- C5: an image whose parsed source is a `data:` URI with an SVG media
type is rejected fatally by the image policy for every trusted-host
list: host trust is never consulted before the failure. -/
theorem svg_data_uri_always_fatal (sources : List String) (u : ParsedUrl)
    (hp : strLower (optStr u.protocol) = "data:")
    (hsvg : containsSub (strLower (optStr u.path)).data "/svg".data = true) :
    ∃ e, checkImageSrc sources u = Except.error e := by
  unfold checkImageSrc
  rw [hp, hsvg]
  cases hh : (strLower (optStr u.host) == "image") <;> simp [hh]

/-- Witness for C5 at a concrete inline SVG data URI and the real
trusted-host list. -/
theorem svg_data_uri_always_fatal_witness :
    ∃ e, checkImageSrc TrustedSVGSources
        { protocol := some "data:", host := some "image",
          path := some "/svg+xml;base64,x", pathname := some "/svg+xml;base64,x" } =
      Except.error e :=
  svg_data_uri_always_fatal TrustedSVGSources
    { protocol := some "data:", host := some "image",
      path := some "/svg+xml;base64,x", pathname := some "/svg+xml;base64,x" }
    (by decide) (by decide)

/-! # Lemmas for the issue-reference rewriting (C7) -/

theorem takeWhile_no_slash (l : List Char) (h : ∀ c ∈ l, c ≠ '/') :
    l.takeWhile (fun c => !(c == '/')) = l := by
  induction l with
  | nil => rfl
  | cons c cs ih =>
    have hc : c ≠ '/' := h c (List.mem_cons_self c cs)
    simp only [List.takeWhile_cons]
    rw [if_pos (by simpa using hc)]
    rw [ih fun d hd => h d (List.mem_cons_of_mem c hd)]

theorem takeWhile_until_slash (l1 : List Char) (h : ∀ c ∈ l1, c ≠ '/') (l2 : List Char) :
    (l1 ++ '/' :: l2).takeWhile (fun c => !(c == '/')) = l1 := by
  induction l1 with
  | nil => simp [List.takeWhile_cons]
  | cons c cs ih =>
    have hc : c ≠ '/' := h c (List.mem_cons_self c cs)
    simp only [List.cons_append, List.takeWhile_cons]
    rw [if_pos (by simpa using hc)]
    rw [ih fun d hd => h d (List.mem_cons_of_mem c hd)]

theorem jsSplitSlash2_concat (o r : String)
    (ho : ∀ c ∈ o.data, c ≠ '/') (hr : ∀ c ∈ r.data, c ≠ '/') :
    jsSplitSlash2 (o ++ "/" ++ r) = (o, r) := by
  unfold jsSplitSlash2
  have hdata : (o ++ "/" ++ r).data = o.data ++ '/' :: r.data := by
    simp [String.data_append]
  rw [hdata, takeWhile_until_slash o.data ho r.data]
  simp only [List.drop_left]
  rw [takeWhile_no_slash r.data hr]


/-- C7: a bare issue token is rewritten only when the resolved
repository is GitHub-hosted; a cross-repository token links against the
referenced owner and repository (independently of the current
repository URL), a same-repository token links against the resolved
repository URL, and without a GitHub-hosted repository the token is
returned unchanged. -/
theorem issue_rewrite_cases (st : MdUrls) (whole pre o r issueNumber : String)
    (ho1 : ¬ o = "") (ho2 : ∀ c ∈ o.data, c ≠ '/')
    (hr1 : ¬ r = "") (hr2 : ∀ c ∈ r.data, c ≠ '/')
    (hn : ¬ issueNumber = "") :
    (st.isGitHub = false → ∀ oarn, issueReplace st whole pre oarn issueNumber = whole)
    ∧ (st.isGitHub = true →
        issueReplace st whole pre (some (o ++ "/" ++ r)) issueNumber =
          pre ++ "[" ++ o ++ "/" ++ r ++ "#" ++ issueNumber ++ "](" ++
            urljoinList ["https://github.com", o, r, "issues", issueNumber] ++ ")")
    ∧ (st.isGitHub = true →
        issueReplace st whole pre none issueNumber =
          pre ++ "[#" ++ issueNumber ++ "](" ++
            urljoinList [(match st.repositoryUrl with | some s => s | none => ""),
              "issues", issueNumber] ++ ")") := by
  refine ⟨?_, ?_, ?_⟩
  · intro hg oarn
    simp [issueReplace, hg]
  · intro hg
    simp [issueReplace, hg, jsSplitSlash2_concat o r ho2 hr2, ho1, hr1, hn]
  · intro hg
    simp [issueReplace, hg, hn]

/-- Witness for C7: a cross-repository reference in a GitHub-hosted
project is rewritten against the referenced repository. -/
theorem issue_rewrite_cases_witness :
    issueReplace
        (mkMarkdownUrls none none (some (RepoField.strRepo "https://github.com/joe/proj")))
        " owner/repo#42" " " (some ("owner" ++ "/" ++ "repo")) "42" =
      " " ++ "[" ++ "owner" ++ "/" ++ "repo" ++ "#" ++ "42" ++ "](" ++
        urljoinList ["https://github.com", "owner", "repo", "issues", "42"] ++ ")" :=
  (issue_rewrite_cases
      (mkMarkdownUrls none none (some (RepoField.strRepo "https://github.com/joe/proj")))
      " owner/repo#42" " " "owner" "repo" "42" (by decide) (by decide) (by decide)
      (by decide) (by decide)).2.1 (by decide)

/-- C9: with a `SEE LICENSE IN X` manifest field the license filter is
the anchored regex `^extension/X$` with `X` spliced in unescaped, so
regex metacharacters in `X` are interpreted: for `X = LICENSE.md` the
dot matches any character and the non-literal path
`extension/LICENSEymd` is accepted alongside the literal one. -/
theorem license_regex_unescaped :
    (∀ name : String, licenseFilter (some "SEE LICENSE IN LICENSE.md") name =
        ratomsMatch (parseRAtoms ("extension/" ++ "LICENSE.md").data) name.data)
    ∧ licenseFilter (some "SEE LICENSE IN LICENSE.md") "extension/LICENSEymd" = true
    ∧ licenseFilter (some "SEE LICENSE IN LICENSE.md") "extension/LICENSE.md" = true
    ∧ ("extension/LICENSEymd" == "extension/LICENSE.md") = false :=
  ⟨fun _ => rfl, by decide, by decide, by decide⟩

/-! # Lemmas for the Icon stage (C6) -/

theorem iconRun_fold (normalize : String → String) (icon : Option String) :
    ∀ (files : List String) (st : IconState),
      files.foldl (iconOnFile normalize icon) st =
        { didFindIcon := st.didFindIcon || files.any fun f => icon == some (normalize f)
          assets := st.assets ++ ((files.filter fun f => icon == some (normalize f)).map
            fun f => (iconAssetType, normalize f))
          vsixIcon :=
            if files.any (fun f => icon == some (normalize f)) then icon else st.vsixIcon } := by
  intro files
  induction files with
  | nil => intro st; simp
  | cons f fs ih =>
    intro st
    simp only [List.foldl_cons, List.any_cons, List.filter_cons]
    rw [ih]
    by_cases hif : (icon == some (normalize f)) = true
    · simp [iconOnFile, hif, List.append_assoc]
    · have hif2 : (icon == some (normalize f)) = false := by
        cases h : (icon == some (normalize f))
        · rfl
        · exact absurd h hif
      simp [iconOnFile, hif2]

theorem filter_map_single {α : Type} (normalize : α → String) (i : String) :
    ∀ files : List α, (files.map normalize).Nodup →
      (∃ f ∈ files, normalize f = i) →
      ((files.filter fun f => some i == some (normalize f)).map
        fun f => (iconAssetType, normalize f)) = [(iconAssetType, i)] := by
  intro files
  induction files with
  | nil => intro _ hex; simp at hex
  | cons f fs ih =>
    intro hnd hex
    simp only [List.map_cons, List.nodup_cons] at hnd
    by_cases hf : normalize f = i
    · have hkeep : (some i == some (normalize f)) = true := by simp [hf]
      rw [List.filter_cons, if_pos hkeep]
      have hempty : fs.filter (fun g => some i == some (normalize g)) = [] := by
        apply List.filter_eq_nil_iff.mpr
        intro g hg
        simp only [Bool.not_eq_true]
        cases h : (some i == some (normalize g))
        · rfl
        · exfalso
          have hig : i = normalize g := by simpa using h
          exact hnd.1 (by rw [hf, hig]; exact List.mem_map_of_mem normalize hg)
      rw [List.map_cons, hempty, List.map_nil, hf]
    · have hdrop : (some i == some (normalize f)) = false := by
        cases h : (some i == some (normalize f))
        · rfl
        · exact absurd (Option.some.inj (beq_iff_eq.mp h)).symm hf
      rw [List.filter_cons, if_neg (by simp [hdrop])]
      apply ih hnd.2
      rcases hex with ⟨g, hg, hgi⟩
      rcases List.mem_cons.mp hg with h | h
      · exact absurd (h ▸ hgi) hf
      · exact ⟨g, h, hgi⟩

/-- C6: with a declared manifest icon, the Icon stage finalize rejects
exactly when no included file's normalised path equals
`extension/<icon>`; and when the icon is present (paths normalising
injectively, as virtual paths are unique), exactly the single icon
asset for it is registered. -/
theorem icon_stage_reject_iff (normalize : String → String) (ic : String)
    (files : List String) (hic : ¬ ic = "") :
    ((∃ e, iconOnEnd (iconInit (some ic)) (iconRun normalize (some ic) files) =
        Except.error e) ↔
      ∀ f ∈ files, ¬ normalize f = "extension/" ++ ic)
    ∧ ((files.map normalize).Nodup →
        (∃ f ∈ files, normalize f = "extension/" ++ ic) →
        (iconRun normalize (some ic) files).assets =
          [(iconAssetType, "extension/" ++ ic)]) := by
  have hinit : iconInit (some ic) = some ("extension/" ++ ic) := by
    simp [iconInit, hic]
  constructor
  · rw [iconRun, iconRun_fold, hinit, iconOnEnd]
    simp only [Bool.false_or]
    cases hany : (files.any fun f => some ("extension/" ++ ic) == some (normalize f))
    · simp only [Bool.not_false, if_pos rfl]
      constructor
      · intro _ f hf hnf
        have : (files.any fun f => some ("extension/" ++ ic) == some (normalize f)) = true :=
          List.any_eq_true.mpr ⟨f, hf, by simp [hnf]⟩
        rw [hany] at this
        exact Bool.false_ne_true this
      · intro _
        exact ⟨_, rfl⟩
    · simp only [Bool.not_true]
      constructor
      · rintro ⟨e, he⟩
        simp at he
      · intro hall
        rcases List.any_eq_true.mp hany with ⟨f, hf, hnf⟩
        have : normalize f = "extension/" ++ ic := by
          have := (beq_iff_eq.mp hnf)
          simpa [eq_comm] using this
        exact absurd this (hall f hf)
  · intro hnd hex
    rw [iconRun, iconRun_fold, hinit]
    simp only []
    exact filter_map_single normalize ("extension/" ++ ic) files hnd hex

/-- Witness for C6: the declared icon is present and exactly one icon
asset results. -/
theorem icon_stage_reject_iff_witness :
    (iconRun id (some "icon.png") ["extension/icon.png", "extension/a.txt"]).assets =
      [(iconAssetType, "extension/" ++ "icon.png")] :=
  (icon_stage_reject_iff id "icon.png" ["extension/icon.png", "extension/a.txt"]
    (by decide)).2 (by decide) (by decide)

/-! # Lemmas for the Localization stage (C8) -/

theorem find?_key_cons_pos (q : String × String) (m : List (String × String)) (k2 : String)
    (h : (q.1 == k2) = true) :
    List.find? (fun p => p.1 == k2) (q :: m) = some q :=
  List.find?_cons_of_pos _ (show (fun p : String × String => p.1 == k2) q = true from h)

theorem find?_key_cons_neg (q : String × String) (m : List (String × String)) (k2 : String)
    (h : (q.1 == k2) = false) :
    List.find? (fun p => p.1 == k2) (q :: m) = List.find? (fun p => p.1 == k2) m :=
  List.find?_cons_of_neg _
    (show ¬ (fun p : String × String => p.1 == k2) q = true by simp [h])

theorem objGet_update_self : ∀ (m : List (String × String)) (k v : String),
    (∃ p ∈ m, p.1 = k) →
    objGet (m.map fun p => if p.1 == k then (k, v) else p) k = some v := by
  intro m k v hex
  induction m with
  | nil => simp at hex
  | cons q m ih =>
    by_cases hq : (q.1 == k) = true
    · simp only [List.map_cons, if_pos hq]
      unfold objGet
      rw [find?_key_cons_pos _ _ _ (by simp)]
      rfl
    · simp only [List.map_cons, if_neg hq]
      unfold objGet
      rw [find?_key_cons_neg _ _ _ (by simpa using hq)]
      have hex2 : ∃ p ∈ m, p.1 = k := by
        rcases hex with ⟨p, hp, hpk⟩
        rcases List.mem_cons.mp hp with h | h
        · exact absurd (beq_iff_eq.mpr (h ▸ hpk)) hq
        · exact ⟨p, h, hpk⟩
      exact ih hex2

theorem objGet_update_other : ∀ (m : List (String × String)) (k v k2 : String),
    ¬ k2 = k →
    objGet (m.map fun p => if p.1 == k then (k, v) else p) k2 = objGet m k2 := by
  intro m k v k2 hne
  induction m with
  | nil => rfl
  | cons q m ih =>
    by_cases hq : (q.1 == k) = true
    · have hqk : q.1 = k := beq_iff_eq.mp hq
      have hnew : ((k : String) == k2) = false := by
        cases h : (k == k2)
        · rfl
        · exact absurd (beq_iff_eq.mp h).symm hne
      simp only [List.map_cons, if_pos hq]
      unfold objGet
      rw [find?_key_cons_neg _ _ _ hnew, find?_key_cons_neg _ _ _ (by rw [hqk]; exact hnew)]
      exact ih
    · simp only [List.map_cons, if_neg hq]
      by_cases hq2 : (q.1 == k2) = true
      · unfold objGet
        rw [find?_key_cons_pos _ _ _ hq2, find?_key_cons_pos _ _ _ hq2]
      · unfold objGet
        rw [find?_key_cons_neg _ _ _ (by simpa using hq2),
          find?_key_cons_neg _ _ _ (by simpa using hq2)]
        exact ih

theorem objGet_append_single (m : List (String × String)) (k v k2 : String) :
    objGet (m ++ [(k, v)]) k2 =
      match objGet m k2 with
      | some w => some w
      | none => if k == k2 then some v else none := by
  induction m with
  | nil =>
    unfold objGet
    by_cases hk : (k == k2) = true
    · rw [List.nil_append, find?_key_cons_pos _ _ _ hk]
      simp [hk]
    · rw [List.nil_append, find?_key_cons_neg _ _ _ (by simpa using hk)]
      simp [hk]
  | cons q m ih =>
    by_cases hq : (q.1 == k2) = true
    · unfold objGet
      rw [List.cons_append, find?_key_cons_pos _ _ _ hq, find?_key_cons_pos _ _ _ hq]
      rfl
    · unfold objGet
      rw [List.cons_append, find?_key_cons_neg _ _ _ (by simpa using hq),
        find?_key_cons_neg _ _ _ (by simpa using hq)]
      exact ih

theorem objGet_objSet_self (m : List (String × String)) (k v : String) :
    objGet (objSet m k v) k = some v := by
  unfold objSet
  by_cases hin : (m.any fun p => p.1 == k) = true
  · rw [if_pos hin]
    rcases List.any_eq_true.mp hin with ⟨p, hp, hpk⟩
    exact objGet_update_self m k v ⟨p, hp, beq_iff_eq.mp hpk⟩
  · rw [if_neg hin, objGet_append_single]
    have hnone : objGet m k = none := by
      unfold objGet
      rw [List.find?_eq_none.mpr]
      · rfl
      · intro p hp hpk
        exact hin (List.any_eq_true.mpr ⟨p, hp, hpk⟩)
    rw [hnone]
    simp

theorem objGet_objSet_other (m : List (String × String)) (k v k2 : String)
    (hne : ¬ k2 = k) :
    objGet (objSet m k v) k2 = objGet m k2 := by
  unfold objSet
  by_cases hin : (m.any fun p => p.1 == k) = true
  · rw [if_pos hin]
    exact objGet_update_other m k v k2 hne
  · rw [if_neg hin, objGet_append_single]
    have hk : (k == k2) = false := by
      cases h : (k == k2)
      · rfl
      · exact absurd (beq_iff_eq.mp h).symm hne
    cases hg : objGet m k2
    · simp [hk]
    · simp

theorem keys_nodup_objSet (m : List (String × String)) (k v : String)
    (h : (m.map Prod.fst).Nodup) : ((objSet m k v).map Prod.fst).Nodup := by
  unfold objSet
  by_cases hin : (m.any fun p => p.1 == k) = true
  · rw [if_pos hin]
    have hkeys : ((m.map fun p => if p.1 == k then (k, v) else p).map Prod.fst) =
        m.map Prod.fst := by
      rw [List.map_map]
      apply List.map_congr_left
      intro p _
      show (if (p.1 == k) = true then (k, v) else p).1 = p.1
      by_cases hp : (p.1 == k) = true
      · rw [if_pos hp]
        exact (beq_iff_eq.mp hp).symm
      · rw [if_neg hp]
    rw [hkeys]
    exact h
  · rw [if_neg hin]
    rw [List.map_append]
    apply List.Nodup.append h (by simp)
    intro x hx hy
    simp at hy
    rcases List.mem_map.mp hx with ⟨p, hp, hpk⟩
    exact hin (List.any_eq_true.mpr ⟨p, hp, by rw [hy] at hpk; simp [hpk]⟩)

theorem keys_nodup_foldl_objSet :
    ∀ (entries : List (String × String)) (m0 : List (String × String)),
      ((m0.map Prod.fst).Nodup) →
      (((entries.foldl (fun m e => objSet m e.1 e.2) m0).map Prod.fst).Nodup) := by
  intro entries
  induction entries with
  | nil => intro m0 h; exact h
  | cons e es ih =>
    intro m0 h
    exact ih (objSet m0 e.1 e.2) (keys_nodup_objSet m0 e.1 e.2 h)

theorem objGet_mem : ∀ (m : List (String × String)) (k v : String),
    objGet m k = some v → (k, v) ∈ m := by
  intro m k v h
  induction m with
  | nil => simp [objGet] at h
  | cons q m ih =>
    by_cases hq : (q.1 == k) = true
    · unfold objGet at h
      rw [find?_key_cons_pos _ _ _ hq] at h
      have hv : q.2 = v := by simpa using h
      have hk : q.1 = k := beq_iff_eq.mp hq
      rw [← hk, ← hv]
      exact List.mem_cons_self q m
    · unfold objGet at h
      rw [find?_key_cons_neg _ _ _ (by simpa using hq)] at h
      exact List.mem_cons_of_mem q (ih h)

theorem mem_objGet_of_nodup : ∀ (m : List (String × String)) (k v : String),
    ((m.map Prod.fst).Nodup) → (k, v) ∈ m → objGet m k = some v := by
  intro m k v hnd hmem
  induction m with
  | nil => simp at hmem
  | cons q m ih =>
    simp only [List.map_cons, List.nodup_cons] at hnd
    rcases List.mem_cons.mp hmem with h | h
    · unfold objGet
      rw [find?_key_cons_pos _ _ _ (by rw [← h]; simp)]
      rw [← h]
      rfl
    · have hq : (q.1 == k) = false := by
        cases hqq : (q.1 == k)
        · rfl
        · exfalso
          apply hnd.1
          rw [beq_iff_eq.mp hqq]
          simpa using List.mem_map_of_mem Prod.fst h
      unfold objGet
      rw [find?_key_cons_neg _ _ _ hq]
      exact ih hnd.2 h

theorem objGet_foldl_invert :
    ∀ (m : List (String × String)) (inv0 : List (String × String)) (p lang : String),
      objGet (m.foldl (fun inv kv => objSet inv kv.2 kv.1) inv0) p = some lang →
      (lang, p) ∈ m ∨ objGet inv0 p = some lang := by
  intro m
  induction m with
  | nil => intro inv0 p lang h; exact Or.inr h
  | cons kv m ih =>
    intro inv0 p lang h
    rcases ih (objSet inv0 kv.2 kv.1) p lang h with hm | hi
    · exact Or.inl (List.mem_cons_of_mem kv hm)
    · by_cases hp : p = kv.2
      · rw [hp, objGet_objSet_self] at hi
        have : kv.1 = lang := by simpa using hi
        left
        rw [hp, ← this]
        exact List.mem_cons_self kv m
      · rw [objGet_objSet_other inv0 kv.2 kv.1 p hp] at hi
        exact Or.inr hi

theorem objGet_foldl_objSet (k : String) (entries : List (String × String))
    (m0 : List (String × String)) :
    objGet (entries.foldl (fun m e => objSet m e.1 e.2) m0) k =
      match (entries.filter fun e => e.1 == k).getLast? with
      | some e => some e.2
      | none => objGet m0 k := by
  induction entries using List.reverseRecOn with
  | nil => rfl
  | append_singleton es e ih =>
    rw [List.foldl_append, List.filter_append]
    by_cases he : (e.1 == k) = true
    · rw [List.foldl_cons, List.foldl_nil]
      have hek : e.1 = k := beq_iff_eq.mp he
      have hfe : List.filter (fun e => e.1 == k) [e] = [e] := by
        simp [List.filter_cons, he]
      rw [hfe, List.getLast?_concat, hek]
      exact objGet_objSet_self _ k e.2
    · rw [List.foldl_cons, List.foldl_nil]
      have hfe : List.filter (fun e => e.1 == k) [e] = [] := by
        simp [List.filter_cons, he]
      rw [hfe, List.append_nil]
      rw [objGet_objSet_other _ e.1 e.2 k (by
        intro hk
        exact absurd (beq_iff_eq.mpr hk.symm) he)]
      exact ih

theorem nls_inner_fold (normalize : String → String) (lang : String) :
    ∀ (trs : List Translation) (m : List (String × String)),
      trs.foldl
        (fun m2 tr =>
          if tr.id == "vscode" && !(tr.path == "") then
            objSet m2 lang (nlsPathOf normalize tr)
          else m2) m =
      ((trs.filter fun tr => tr.id == "vscode" && !(tr.path == "")).map
        fun tr => (lang, nlsPathOf normalize tr)).foldl
        (fun m e => objSet m e.1 e.2) m := by
  intro trs
  induction trs with
  | nil => intro m; rfl
  | cons tr trs ih =>
    intro m
    by_cases hc : (tr.id == "vscode" && !(tr.path == "")) = true
    · rw [List.foldl_cons, if_pos hc, List.filter_cons, if_pos hc, List.map_cons,
        List.foldl_cons]
      exact ih _
    · rw [List.foldl_cons, if_neg hc, List.filter_cons, if_neg hc]
      exact ih _

theorem buildLangToPath_eq (normalize : String → String) :
    ∀ (locs : List NlsLocalization) (m0 : List (String × String)),
      locs.foldl
        (fun m loc =>
          loc.translations.foldl
            (fun m2 tr =>
              if tr.id == "vscode" && !(tr.path == "") then
                objSet m2 (strUpper loc.languageId) (nlsPathOf normalize tr)
              else m2) m) m0 =
      (nlsEntries normalize locs).foldl (fun m e => objSet m e.1 e.2) m0 := by
  intro locs
  induction locs with
  | nil => intro m0; rfl
  | cons loc locs ih =>
    intro m0
    rw [List.foldl_cons, ih]
    rw [show nlsEntries normalize (loc :: locs) =
      ((loc.translations.filter fun tr => tr.id == "vscode" && !(tr.path == "")).map
        fun tr => (strUpper loc.languageId, nlsPathOf normalize tr)) ++
        nlsEntries normalize locs from by rw [nlsEntries, List.flatMap_cons]; rfl]
    rw [List.foldl_append]
    rw [nls_inner_fold normalize (strUpper loc.languageId) loc.translations m0]

theorem objGet_buildLangToPath (normalize : String → String) (locs : List NlsLocalization)
    (lang : String) :
    objGet (buildLangToPath normalize locs) lang =
      (((nlsEntries normalize locs).filter fun e => e.1 == lang).getLast?).map Prod.snd := by
  rw [buildLangToPath, buildLangToPath_eq, objGet_foldl_objSet]
  cases h : ((nlsEntries normalize locs).filter fun e => e.1 == lang).getLast? <;> rfl

theorem keys_nodup_buildLangToPath (normalize : String → String)
    (locs : List NlsLocalization) :
    ((buildLangToPath normalize locs).map Prod.fst).Nodup := by
  rw [buildLangToPath, buildLangToPath_eq]
  exact keys_nodup_foldl_objSet (nlsEntries normalize locs) [] (by simp)

theorem nlsRun_fold (normalize : String → String) (inv : List (String × String)) :
    ∀ (files : List String) (acc : List (String × String)),
      files.foldl (nlsOnFile normalize inv) acc =
        acc ++ files.filterMap fun f =>
          match objGet inv (normalize f) with
          | some language =>
            if !(language == "") then some (nlsAssetType language, normalize f) else none
          | none => none := by
  intro files
  induction files with
  | nil => intro acc; simp
  | cons f fs ih =>
    intro acc
    rw [List.foldl_cons, ih, List.filterMap_cons]
    cases hog : objGet inv (normalize f) with
    | none => simp [nlsOnFile, hog]
    | some language =>
      by_cases hl : (language == "") = true
      · simp [nlsOnFile, hog, hl]
      · have hl2 : (language == "") = false := by
          cases h : (language == "")
          · rfl
          · exact absurd h hl
        simp [nlsOnFile, hog, hl2]

theorem strAppend_left_cancel (s t u : String) (h : s ++ t = s ++ u) : t = u := by
  have hd : s.data ++ t.data = s.data ++ u.data := by
    rw [← String.data_append, ← String.data_append, h]
  have h2 := List.append_cancel_left hd
  cases t
  cases u
  exact congrArg String.mk (by simpa using h2)

theorem getLast?_map_snd (l : List (String × String)) :
    (l.map Prod.snd).getLast? = (l.getLast?).map Prod.snd := by
  induction l using List.reverseRecOn with
  | nil => rfl
  | append_singleton es e _ =>
    rw [List.map_append, List.map_cons, List.map_nil, List.getLast?_concat,
      List.getLast?_concat]
    rfl

theorem nls_asset_is_last (normalize : String → String) (locs : List NlsLocalization)
    (files : List String) (lang : String) (a : String × String)
    (ha : a ∈ nlsRun normalize locs files) (hty : a.1 = nlsAssetType lang) :
    (declaredTranslationPaths normalize locs lang).getLast? = some a.2 := by
  rw [nlsRun, nlsRun_fold, List.nil_append] at ha
  rcases List.mem_filterMap.mp ha with ⟨f, hf, hmk⟩
  rcases hog : objGet (buildPathToLang (buildLangToPath normalize locs)) (normalize f) with
    _ | language
  · rw [hog] at hmk
    have hmk2 : (none : Option (String × String)) = some a := hmk
    exact absurd hmk2 (by simp)
  · rw [hog] at hmk
    by_cases hl : (language == "") = true
    · have hmk2 : (if !(language == "") then
          some (nlsAssetType language, normalize f) else none) = some a := hmk
      rw [if_neg (by rw [hl]; simp)] at hmk2
      exact absurd hmk2 (by simp)
    · have hl2 : (language == "") = false := by
        cases h : (language == "")
        · rfl
        · exact absurd h hl
      have hmk2 : (if !(language == "") then
          some (nlsAssetType language, normalize f) else none) = some a := hmk
      rw [if_pos (show (!(language == "")) = true from by rw [hl2]; rfl)] at hmk2
      have hae : a = (nlsAssetType language, normalize f) := (Option.some.inj hmk2).symm
      have hlang : language = lang := by
        have h1 : nlsAssetType language = nlsAssetType lang := by
          rw [← hty, hae]
        exact strAppend_left_cancel "Microsoft.VisualStudio.Code.Translation." _ _ h1
      subst hlang
      have hmem : (language, normalize f) ∈ buildLangToPath normalize locs := by
        rcases objGet_foldl_invert (buildLangToPath normalize locs) [] (normalize f)
            language hog with h | h
        · exact h
        · exact absurd h (by simp [objGet])
      have hget : objGet (buildLangToPath normalize locs) language = some (normalize f) :=
        mem_objGet_of_nodup _ language (normalize f)
          (keys_nodup_buildLangToPath normalize locs) hmem
      rw [objGet_buildLangToPath] at hget
      rw [show declaredTranslationPaths normalize locs language =
        ((nlsEntries normalize locs).filter fun e => e.1 == language).map Prod.snd from rfl]
      rw [getLast?_map_snd, hget, hae]

/-- C8: for every language, every translation asset the Localization
stage registers with that language's type carries the last-declared
translation path for the language; a declared path that is not the
last-declared one is never registered as that language's asset. -/
theorem nls_last_declared_wins (normalize : String → String) (locs : List NlsLocalization)
    (files : List String) (lang : String) :
    (∀ a ∈ nlsRun normalize locs files, a.1 = nlsAssetType lang →
        (declaredTranslationPaths normalize locs lang).getLast? = some a.2)
    ∧ (∀ p ∈ declaredTranslationPaths normalize locs lang,
        ¬ (declaredTranslationPaths normalize locs lang).getLast? = some p →
        (nlsAssetType lang, p) ∉ nlsRun normalize locs files) :=
  ⟨fun a ha hty => nls_asset_is_last normalize locs files lang a ha hty,
   fun _p _ hne hmem => hne (nls_asset_is_last normalize locs files lang _ hmem rfl)⟩

/-- Witness for C8: with two declarations for the same language, the
earlier path is not registered as that language's asset. -/
theorem nls_last_declared_wins_witness :
    (nlsAssetType "DE", "extension/a.json") ∉
      nlsRun id
        [{ languageId := "de",
           translations := [{ id := "vscode", path := "./a.json" },
             { id := "vscode", path := "b.json" }] }]
        ["extension/a.json", "extension/b.json"] :=
  (nls_last_declared_wins id
      [{ languageId := "de",
         translations := [{ id := "vscode", path := "./a.json" },
           { id := "vscode", path := "b.json" }] }]
      ["extension/a.json", "extension/b.json"] "DE").2 "extension/a.json"
    (by decide) (by decide)
